import Mathlib

/-!
Verification development for the concurrent repository-analysis pipeline
(`repo_parser.py`, `main.py`, `config.py`, `data_classes.py`).

The Python source is shallowly embedded: pure computations become Lean
functions, the file system / cache directory / external tree-sitter engine
become explicit parameters and state, machine floats used only as opaque
timestamps and durations are modelled as `Nat` ticks, and fallible steps
return `Option` / `Except`.
-/

/-! ### Python string primitives used by the pipeline -/

/-- Characters stripped by Python's `str.strip("\x22'")` in
`_extract_definitions`: the double quote and the single quote. -/
def quoteChars : List Char := [Char.ofNat 34, Char.ofNat 39]

/-- Model of Python `str.strip()` / `str.strip(chars)`: drop the characters
satisfying `p` from both ends of the character list. -/
def stripEnds (p : Char → Bool) (l : List Char) : List Char :=
  ((l.dropWhile p).reverse.dropWhile p).reverse

/-- `name.strip()` from `_extract_definitions`: strip surrounding whitespace. -/
def pyStripWs (s : String) : String :=
  ⟨stripEnds (fun c => c.isWhitespace) s.data⟩

/-- `name.strip().strip("\x22'")` from `_extract_definitions` (line 273):
strip surrounding whitespace, then surrounding quote characters. -/
def pyStripNameText (s : String) : String :=
  ⟨stripEnds (fun c => c ∈ quoteChars) (pyStripWs s).data⟩

/-- The basename of a path string: the characters after the last `/`
(the whole string when there is no `/`), as used by `pathlib` to compute
`Path(p).name`. -/
def baseName (p : String) : String :=
  ⟨(p.data.reverse.takeWhile (fun c => !(c == '/'))).reverse⟩

/-- Model of `pathlib.PurePath.suffix` on a file name: the substring from the
last dot onwards, provided that dot is neither the first nor the last
character of the name (`Path("a.py").suffix = ".py"`,
`Path(".hidden").suffix = ""`, `Path("a.").suffix = ""`). -/
def pySuffixOfName (nm : String) : String :=
  let rev := nm.data.reverse
  let afterDot := rev.takeWhile (fun c => !(c == '.'))
  if afterDot.length ≠ 0 ∧ afterDot.length + 1 < rev.length then
    ⟨'.' :: afterDot.reverse⟩
  else ""

/-- ASCII lowering of a string, modelling `str.lower()` as applied to file
extensions (`file_path.suffix.lower()`, lines 103 and 126). -/
def lowerStr (s : String) : String := ⟨s.data.map Char.toLower⟩

/-- `path_obj.suffix.lower()`: the lower-cased extension of the final path
component. -/
def pathSuffixLower (p : String) : String := lowerStr (pySuffixOfName (baseName p))

/-- Truthiness of `Optional[str]` in Python (`if not lang_name`, line 204, and
`if self.extension_to_lang_name.get(...)`, line 126): `None` and the empty
string are falsy. -/
def optStrTruthy : Option String → Bool
  | none => false
  | some s => !s.isEmpty

/-! ### Decimal rendering for the fingerprint string

`_get_file_hash` builds `f"{file_path}:{stat.st_mtime}:{stat.st_size}"` and
md5-hashes it. The numeric renderings are modelled by the fuel-based decimal
renderer below; all the development uses of it are that it is injective and
never produces the `:` separator, which also holds of Python's `str()` on the
stat fields. -/

/-- Decimal digits of `n`, most significant first, by repeated division;
`fuel ≥ n` suffices for the recursion to complete. Produces `[]` for `0`. -/
def natDecimal : Nat → Nat → List Char
  | 0, _ => []
  | fuel + 1, n =>
    if n = 0 then [] else natDecimal fuel (n / 10) ++ [Nat.digitChar (n % 10)]

/-- Decimal rendering of a natural number, modelling Python's `str()` of the
numeric stat fields. -/
def natStr (n : Nat) : String := if n = 0 then "0" else ⟨natDecimal n n⟩

/-- Folding step that reads a decimal digit character back into an
accumulated value; used only to prove `natStr` injective. -/
def decStep (acc : Nat) (c : Char) : Nat := acc * 10 + (c.toNat - 48)

theorem natDecimal_foldl (fuel : Nat) : ∀ n v, n ≤ fuel →
    List.foldl decStep v (natDecimal fuel n) =
      v * 10 ^ (natDecimal fuel n).length + n := by
  induction fuel with
  | zero =>
    intro n v hn
    interval_cases n
    simp [natDecimal]
  | succ fuel ih =>
    intro n v hn
    by_cases h0 : n = 0
    · subst h0; simp [natDecimal]
    · have hrec : n / 10 ≤ fuel := by
        have : n / 10 < n := Nat.div_lt_self (Nat.pos_of_ne_zero h0) (by omega)
        omega
      have hmod : n % 10 < 10 := Nat.mod_lt _ (by omega)
      have hchar : (Nat.digitChar (n % 10)).toNat = 48 + n % 10 := by
        interval_cases h : n % 10 <;> simp_all <;> rfl
      simp only [natDecimal, if_neg h0, List.foldl_append, List.length_append]
      rw [ih (n / 10) v hrec]
      simp only [List.foldl_cons, List.foldl_nil, decStep, hchar, List.length_singleton]
      have h48 : 48 + n % 10 - 48 = n % 10 := by omega
      rw [h48]
      have expand : (v * 10 ^ (natDecimal fuel (n / 10)).length + n / 10) * 10 + n % 10 =
          v * (10 ^ (natDecimal fuel (n / 10)).length * 10) + (n / 10 * 10 + n % 10) := by
        ring
      rw [expand, Nat.div_add_mod', ← pow_succ]

theorem natDecimal_val (n : Nat) :
    List.foldl decStep 0 (natDecimal n n) = n := by
  simpa using natDecimal_foldl n n 0 (Nat.le_refl n)

theorem natStr_injective : Function.Injective natStr := by
  intro m n h
  have hdata : (natStr m).data = (natStr n).data := by rw [h]
  by_cases hm : m = 0 <;> by_cases hn : n = 0
  · omega
  · exfalso
    simp only [natStr, if_pos hm, if_neg hn] at hdata
    have := natDecimal_val n
    rw [← hdata] at this
    simp [decStep] at this
    omega
  · exfalso
    simp only [natStr, if_neg hm, if_pos hn] at hdata
    have := natDecimal_val m
    rw [hdata] at this
    simp [decStep] at this
    omega
  · simp only [natStr, if_neg hm, if_neg hn] at hdata
    have hm' := natDecimal_val m
    have hn' := natDecimal_val n
    rw [hdata] at hm'
    omega

theorem natDecimal_no_colon (fuel : Nat) : ∀ n c, c ∈ natDecimal fuel n → c ≠ ':' := by
  induction fuel with
  | zero => intro n c hc; simp [natDecimal] at hc
  | succ fuel ih =>
    intro n c hc
    by_cases h0 : n = 0
    · subst h0; simp [natDecimal] at hc
    · simp only [natDecimal, if_neg h0, List.mem_append, List.mem_singleton] at hc
      rcases hc with hc | hc
      · exact ih _ _ hc
      · subst hc
        have hmod : n % 10 < 10 := Nat.mod_lt _ (by omega)
        interval_cases h : n % 10 <;> simp_all <;> decide

theorem natStr_no_colon (n : Nat) : ∀ c ∈ (natStr n).data, c ≠ ':' := by
  intro c hc
  by_cases h0 : n = 0
  · subst h0; simp [natStr] at hc; subst hc; decide
  · simp only [natStr, if_neg h0] at hc
    exact natDecimal_no_colon n n c hc

/-! ### The fingerprint (`_get_file_hash`, lines 71-74, duplicated at lines 209-211)

`content = f"{file_path}:{stat.st_mtime}:{stat.st_size}"` followed by
`hashlib.md5(content.encode()).hexdigest()`. The md5 hex digest is modelled as
the identity on its input string: the spec (section 3) assumes fingerprint
collisions across distinct `(path, mtime, size)` tuples are negligible, and
nothing else about the digest is used. The float `st_mtime` is modelled as a
`Nat` tick count. File content never enters the computation. -/
def fileHash (filePath : String) (mtime size : Nat) : String :=
  filePath ++ ":" ++ natStr mtime ++ ":" ++ natStr size

theorem append_colon_injective :
    ∀ (a₁ a₂ b₁ b₂ : List Char), (∀ c ∈ a₁, c ≠ ':') → (∀ c ∈ a₂, c ≠ ':') →
      a₁ ++ ':' :: b₁ = a₂ ++ ':' :: b₂ → a₁ = a₂ ∧ b₁ = b₂ := by
  intro a₁
  induction a₁ with
  | nil =>
    intro a₂ b₁ b₂ _ h₂ heq
    cases a₂ with
    | nil => simpa using heq
    | cons x xs =>
      exfalso
      simp only [List.nil_append, List.cons_append, List.cons.injEq] at heq
      exact h₂ x (by simp) heq.1.symm
  | cons x xs ih =>
    intro a₂ b₁ b₂ h₁ h₂ heq
    cases a₂ with
    | nil =>
      exfalso
      simp only [List.nil_append, List.cons_append, List.cons.injEq] at heq
      exact h₁ x (by simp) heq.1
    | cons y ys =>
      simp only [List.cons_append, List.cons.injEq] at heq
      obtain ⟨hxy, htail⟩ := heq
      obtain ⟨hx, hb⟩ := ih ys b₁ b₂ (fun c hc => h₁ c (by simp [hc]))
        (fun c hc => h₂ c (by simp [hc])) htail
      exact ⟨by simp [hxy, hx], hb⟩

theorem string_eq_of_data_eq : ∀ (s t : String), s.data = t.data → s = t := by
  intro ⟨a⟩ ⟨b⟩ h
  exact congrArg String.mk h

theorem fileHash_data (p : String) (m s : Nat) :
    (fileHash p m s).data =
      p.data ++ ':' :: ((natStr m).data ++ ':' :: (natStr s).data) := by
  simp [fileHash, String.data_append]

theorem fileHash_eq_iff (p : String) (m₁ s₁ m₂ s₂ : Nat) :
    fileHash p m₁ s₁ = fileHash p m₂ s₂ ↔ m₁ = m₂ ∧ s₁ = s₂ := by
  constructor
  · intro h
    have hd : (fileHash p m₁ s₁).data = (fileHash p m₂ s₂).data := by rw [h]
    rw [fileHash_data, fileHash_data] at hd
    have hd' := List.append_cancel_left hd
    injection hd' with hhead hd''
    obtain ⟨hm, hs⟩ := append_colon_injective _ _ _ _
      (natStr_no_colon m₁) (natStr_no_colon m₂) hd''
    exact ⟨natStr_injective (string_eq_of_data_eq _ _ hm),
      natStr_injective (string_eq_of_data_eq _ _ hs)⟩
  · rintro ⟨rfl, rfl⟩
    rfl

/-! ### Executable lexicographic string order

Python's `sorted` compares strings lexicographically by code point. Core
Lean's `String.lt` is implemented over byte iterators and does not reduce in
the kernel, so the development carries its own executable code-point
lexicographic comparison and derives the order facts sorting needs. -/

/-- Lexicographic `≤` on character lists by code point. -/
def charListLe : List Char → List Char → Bool
  | [], _ => true
  | _ :: _, [] => false
  | a :: as, b :: bs =>
    if a.toNat < b.toNat then true
    else if b.toNat < a.toNat then false
    else charListLe as bs

/-- Lexicographic `≤` on strings by code point: the order Python's `sorted`
uses on `str`. -/
def strLe (a b : String) : Bool := charListLe a.data b.data

/-- The ordering relation `sorted` arranges strings by, as a `Prop`. -/
def StrLeR (a b : String) : Prop := strLe a b = true

instance : DecidableRel StrLeR := fun a b => instDecidableEqBool (strLe a b) true

theorem char_toNat_inj {a b : Char} (h : a.toNat = b.toNat) : a = b := by
  cases a
  cases b
  simp only [Char.toNat] at h
  congr 1
  exact UInt32.ext h

theorem charListLe_total : ∀ a b, charListLe a b = true ∨ charListLe b a = true := by
  intro a
  induction a with
  | nil => intro b; left; rfl
  | cons x xs ih =>
    intro b
    cases b with
    | nil => right; rfl
    | cons y ys =>
      by_cases hxy : x.toNat < y.toNat
      · left; simp [charListLe, hxy]
      · by_cases hyx : y.toNat < x.toNat
        · right; simp [charListLe, hyx]
        · rcases ih ys with h | h
          · left; simp [charListLe, hxy, hyx, h]
          · right; simp [charListLe, hxy, hyx, h]

theorem charListLe_trans : ∀ a b c, charListLe a b = true → charListLe b c = true →
    charListLe a c = true := by
  intro a
  induction a with
  | nil => intro b c _ _; rfl
  | cons x xs ih =>
    intro b c hab hbc
    cases b with
    | nil => simp [charListLe] at hab
    | cons y ys =>
      cases c with
      | nil => simp [charListLe] at hbc
      | cons z zs =>
        simp only [charListLe] at hab hbc ⊢
        by_cases hxy : x.toNat < y.toNat <;> by_cases hyz : y.toNat < z.toNat
        · simp [show x.toNat < z.toNat by omega]
        · simp only [if_pos hxy] at hab
          by_cases hzy : z.toNat < y.toNat
          · simp [if_neg hyz, if_pos hzy] at hbc
          · have : y.toNat = z.toNat := by omega
            simp [show x.toNat < z.toNat by omega]
        · simp only [if_neg hxy] at hab
          by_cases hyx : y.toNat < x.toNat
          · simp [if_pos hyx] at hab
          · have : x.toNat = y.toNat := by omega
            simp [show x.toNat < z.toNat by omega]
        · simp only [if_neg hxy] at hab
          by_cases hyx : y.toNat < x.toNat
          · simp [if_pos hyx] at hab
          · simp only [if_neg hyx] at hab
            by_cases hzy : z.toNat < y.toNat
            · simp [if_neg hyz, if_pos hzy] at hbc
            · simp only [if_neg hyz, if_neg hzy] at hbc
              have hxz : ¬ x.toNat < z.toNat := by omega
              have hzx : ¬ z.toNat < x.toNat := by omega
              simp [if_neg hxz, if_neg hzx]
              exact ih ys zs hab hbc

theorem charListLe_antisymm : ∀ a b, charListLe a b = true → charListLe b a = true →
    a = b := by
  intro a
  induction a with
  | nil =>
    intro b _ hba
    cases b with
    | nil => rfl
    | cons y ys => simp [charListLe] at hba
  | cons x xs ih =>
    intro b hab hba
    cases b with
    | nil => simp [charListLe] at hab
    | cons y ys =>
      simp only [charListLe] at hab hba
      by_cases hxy : x.toNat < y.toNat
      · simp [if_neg (show ¬ y.toNat < x.toNat by omega),
          if_pos hxy] at hba
      · by_cases hyx : y.toNat < x.toNat
        · simp [if_neg hxy, if_pos hyx] at hab
        · simp only [if_neg hxy, if_neg hyx] at hab hba
          have hx : x = y := char_toNat_inj (by omega)
          rw [hx, ih ys hab hba]

instance : IsTotal String StrLeR :=
  ⟨fun a b => charListLe_total a.data b.data⟩

instance : IsTrans String StrLeR :=
  ⟨fun a b c => charListLe_trans a.data b.data c.data⟩

instance : IsAntisymm String StrLeR :=
  ⟨fun a b hab hba =>
    string_eq_of_data_eq a b (charListLe_antisymm a.data b.data hab hba)⟩

/-! ### Data model (`data_classes.py`) -/

/-- `FileAnalysis` dataclass: the per-file analysis result. `processing_time`
(a Python float of seconds) is modelled as `Nat` ticks. -/
structure FileAnalysis where
  file_path : String
  functions : List String
  imports : List String
  language : String
  file_size : Nat
  processing_time : Nat
deriving DecidableEq

/-- `RepositoryAnalysis` dataclass: the aggregate over a run.
`languages_found` is a Python `set`, modelled as a `Finset`. -/
structure RepositoryAnalysis where
  total_files : Nat
  total_functions : Nat
  total_imports : Nat
  languages_found : Finset String
  processing_time : Nat
  files : List FileAnalysis
deriving DecidableEq

/-! ### Static language configuration (`config.py`)

Only the extension table is consumed by the orchestration core; the literal
tree-sitter query strings are opaque configuration handed to the external
engine and are not embedded. -/

/-- The `extensions` lists of `LANGUAGE_CONFIGS`, in declaration order. -/
def LANGUAGE_CONFIGS_extensions : List (String × List String) :=
  [("python", [".py", ".pyw"]),
   ("javascript", [".js", ".jsx", ".mjs", ".cjs"]),
   ("typescript", [".ts", ".tsx"]),
   ("java", [".java"]),
   ("go", [".go"])]

/-- Association-list lookup with decidable string keys, used to model Python
`dict` reads. -/
def lookupA {α : Type} : List (String × α) → String → Option α
  | [], _ => none
  | (k, v) :: rest, key => if k = key then some v else lookupA rest key

/-- Remove every binding of a key, used to model `dict`/cache-file overwrite. -/
def eraseA {α : Type} (l : List (String × α)) (key : String) : List (String × α) :=
  l.filter (fun kv => !(kv.1 == key))

/-- Insert-or-overwrite a binding. -/
def insertA {α : Type} (l : List (String × α)) (key : String) (v : α) :
    List (String × α) :=
  (key, v) :: eraseA l key

/-- `self.extension_to_lang_name` (lines 62-66): extension to language name,
flattened from `LANGUAGE_CONFIGS` (no extension appears twice, so first-match
lookup agrees with the dict comprehension). -/
def extension_to_lang_name (ext : String) : Option String :=
  lookupA (LANGUAGE_CONFIGS_extensions.flatMap
    (fun cfg => cfg.2.map (fun e => (e, cfg.1)))) ext

/-! ### External parsing capability and the per-worker warm cache -/

/-- A loaded language capability together with its two compiled pattern
queries (`WORKER_LANGUAGES[lang_name]` entry, lines 32-38). The external
tree-sitter engine is an opaque collaborator: parsing the code bytes and
evaluating a compiled query against the resulting tree is modelled as a
function from the code bytes to the sequence of decoded capture texts
(`code_bytes[node.start_byte:node.end_byte].decode(...)`), in whatever order
the engine returns them. -/
structure LangData where
  functionCaptures : List Nat → List String
  importCaptures : List Nat → List String

/-- State of one worker process: the module-global `WORKER_LANGUAGES` dict
(language name to loaded capability, or `none` for a recorded permanent load
failure), plus logs of the attempted expensive loads and of the emitted
warnings (`logger.warning` for failed loads, line 42, and for unreadable
files, line 226). -/
structure WorkerState where
  workerLanguages : List (String × Option LangData)
  loadCalls : List String
  loadWarnings : List String
  readWarnings : List String

/-- The empty `WORKER_LANGUAGES = {}` state a fresh worker process starts in
(line 20). -/
def initWorkerState : WorkerState :=
  { workerLanguages := [], loadCalls := [], loadWarnings := [], readWarnings := [] }

/-- `_get_language_for_worker` (lines 23-44): consult the per-process dict; on
a miss run the expensive load (`get_language` plus query compilation, modelled
by the oracle `loadLang`, `none` meaning the `try` block raised); cache the
outcome — `None` is stored on failure so the load is never retried — and log a
warning on failure. -/
def get_language_for_worker (loadLang : String → Option LangData)
    (st : WorkerState) (langName : String) : Option LangData × WorkerState :=
  match lookupA st.workerLanguages langName with
  | some v => (v, st)
  | none =>
    match loadLang langName with
    | some d =>
      (some d,
       { st with
         workerLanguages := (langName, some d) :: st.workerLanguages
         loadCalls := st.loadCalls ++ [langName] })
    | none =>
      (none,
       { st with
         workerLanguages := (langName, none) :: st.workerLanguages
         loadCalls := st.loadCalls ++ [langName]
         loadWarnings := st.loadWarnings ++ [langName] })

/-! ### Extraction (`_extract_definitions`, lines 265-274) -/

/-- Sorting of a list of strings, modelling Python `sorted` (ascending
lexicographic order). -/
def sortStr (l : List String) : List String := l.insertionSort StrLeR

/-- `_extract_definitions`: for every capture, strip surrounding whitespace
and quote characters from its decoded text, insert into a set, and render the
set as a sorted list (`sorted(list(definitions))`). The input is the sequence
of decoded capture texts in engine order. -/
def extract_definitions (captures : List String) : List String :=
  sortStr (captures.map pyStripNameText).dedup

/-! ### The per-file task (`_analyze_single_file`, lines 188-263) -/

/-- What the file system reports for one path: the `stat` fields consumed by
the pipeline, and the byte content `open(file_path, "rb").read()` delivers
(`none` models an `IOError`). `st_mtime`, a float, is modelled as `Nat`
ticks. -/
structure FileInfo where
  st_mtime : Nat
  st_size : Nat
  content : Option (List Nat)
deriving DecidableEq

/-- One persisted cache entry (`<fingerprint>.json` in the cache directory):
either a deserializable `FileAnalysis`, or an unreadable/corrupt file on which
`json.load` / `FileAnalysis(**...)` raises. -/
inductive CacheEntry where
  | valid (a : FileAnalysis)
  | corrupt
deriving DecidableEq

/-- The cache directory: fingerprint to entry. A write replaces the file of
that fingerprint. -/
def Cache : Type := List (String × CacheEntry)

/-- The ambient world of a worker invocation: the pickled task arguments
(`extension_to_lang_name`, `use_cache`, `max_file_size` — the cache directory
path is replaced by the cache contents themselves), the file system, the
external engine's load oracle, whether the best-effort cache write succeeds
(`try ... except: pass`, lines 257-261), and the measured tick duration of the
fresh-analysis path (`time.time() - start_time`, line 252, where `start_time`
is taken after the cache lookup). -/
structure Env where
  ext2lang : String → Option String
  loadLang : String → Option LangData
  fs : String → Option FileInfo
  useCache : Bool
  saveOk : Bool
  maxFileSize : Nat
  elapsed : Nat

/-- Cache lookup of `_analyze_single_file` (lines 208-218): only when caching
is on; a missing file or a corrupt entry both yield `none` (fall through to
fresh analysis). -/
def cacheHit (useCache : Bool) (cache : Cache) (hashId : String) :
    Option FileAnalysis :=
  if useCache then
    match lookupA cache hashId with
    | some (CacheEntry.valid a) => some a
    | _ => none
  else none

/-- Best-effort cache write (lines 256-261): replace the entry file for this
fingerprint; a failed write is swallowed and leaves the cache unchanged. -/
def cacheSave (useCache saveOk : Bool) (cache : Cache) (hashId : String)
    (a : FileAnalysis) : Cache :=
  if useCache && saveOk then insertA cache hashId (CacheEntry.valid a) else cache

/-- The freshly assembled `FileAnalysis` (lines 239-253). -/
def freshAnalysis (d : LangData) (filePath langName : String)
    (codeBytes : List Nat) (elapsed : Nat) : FileAnalysis :=
  { file_path := filePath
    functions := extract_definitions (d.functionCaptures codeBytes)
    imports := extract_definitions (d.importCaptures codeBytes)
    language := langName
    file_size := codeBytes.length
    processing_time := elapsed }

/-- `_analyze_single_file` (lines 188-263). Returns the outcome (`.error ()`
models an uncaught exception escaping the worker — here, `stat` on a vanished
path — which the pool surfaces through `future.result()`), the updated worker
state and the updated cache. Step order follows the source: size ceiling,
language resolution, cache lookup, file read, capability lookup, extraction,
assembly, cache write. -/
def analyze_single_file (env : Env) (st : WorkerState) (cache : Cache)
    (filePath : String) :
    Except Unit (Option FileAnalysis) × WorkerState × Cache :=
  match env.fs filePath with
  | none => (Except.error (), st, cache)
  | some info =>
    if info.st_size > env.maxFileSize then (Except.ok none, st, cache)
    else
      let langOpt := env.ext2lang (pathSuffixLower filePath)
      if optStrTruthy langOpt then
        let langName := langOpt.getD ""
        let hashId := fileHash filePath info.st_mtime info.st_size
        match cacheHit env.useCache cache hashId with
        | some a => (Except.ok (some a), st, cache)
        | none =>
          match info.content with
          | none =>
            (Except.ok none,
             { st with readWarnings := st.readWarnings ++ [filePath] }, cache)
          | some codeBytes =>
            match get_language_for_worker env.loadLang st langName with
            | (none, st') => (Except.ok none, st', cache)
            | (some d, st') =>
              let analysis := freshAnalysis d filePath langName codeBytes env.elapsed
              (Except.ok (some analysis),
               st', cacheSave env.useCache env.saveOk cache hashId analysis)
      else (Except.ok none, st, cache)

/-! ### Aggregation (`analyze_repository`, lines 162-186) -/

/-- Project the successful analyses out of the completed outcomes, in
completion order: `future.result()` raising is caught and logged (the path is
excluded), and falsy results (`None`) are dropped by `if result:`. -/
def successes (outcomes : List (Except Unit (Option FileAnalysis))) :
    List FileAnalysis :=
  outcomes.filterMap (fun o =>
    match o with
    | Except.ok (some a) => some a
    | _ => none)

/-- The aggregation loop of `analyze_repository`: fold the completed outcomes
(in completion order) into the totals, the language set and the result list,
stamping the wall-clock total time. -/
def aggregate (outcomes : List (Except Unit (Option FileAnalysis)))
    (totalTime : Nat) : RepositoryAnalysis :=
  let analyses := successes outcomes
  { total_files := analyses.length
    total_functions := (analyses.map (fun a => a.functions.length)).sum
    total_imports := (analyses.map (fun a => a.imports.length)).sum
    languages_found := (analyses.map (fun a => a.language)).toFinset
    processing_time := totalTime
    files := analyses }

deriving instance DecidableEq for Except

/-! ### Discovery (`_collect_files`, lines 107-128) -/

/-- A directory tree: name, subdirectories and plain file names, the shape
`os.walk` traverses. -/
inductive FSTree where
  | dir (dirName : String) (subdirs : List FSTree) (fileNames : List String)

/-- Name accessor of a directory node. -/
def FSTree.name : FSTree → String
  | .dir n _ _ => n

/-- The default `exclude_patterns` (lines 110-118). -/
def defaultExcludePatterns : List String :=
  [".git", "node_modules", "__pycache__", "build", "dist", ".venv"]

mutual

/-- The `os.walk(repo_path, topdown=True)` loop of `_collect_files`: at each
directory, collect `root/filename` for every file whose lower-cased extension
is mapped by `extension_to_lang_name` (truthily — line 126); prune excluded
subdirectory names before descending (line 122). Size is never consulted
here. -/
def walkCollect (e2l : String → Option String) (exclude : List String)
    (rootPath : String) : FSTree → List String
  | .dir _ subdirs fileNames =>
    fileNames.filterMap (fun fn =>
      if optStrTruthy (e2l (pathSuffixLower (rootPath ++ "/" ++ fn))) then
        some (rootPath ++ "/" ++ fn)
      else none)
    ++ walkList e2l exclude rootPath subdirs

/-- Traversal of the pruned subdirectory list. -/
def walkList (e2l : String → Option String) (exclude : List String)
    (rootPath : String) : List FSTree → List String
  | [] => []
  | t :: ts =>
    (if t.name ∈ exclude then []
     else walkCollect e2l exclude (rootPath ++ "/" ++ t.name) t)
    ++ walkList e2l exclude rootPath ts

end

/-- `_collect_files(repo_path, exclude_patterns)`: walk the repository tree
rooted at `repoPath` (the root directory itself is never pruned). -/
def collect_files (e2l : String → Option String) (exclude : List String)
    (repoPath : String) (tree : FSTree) : List String :=
  walkCollect e2l exclude repoPath tree

/-! ### Report and display (`main.py`, lines 69-108) -/

/-- The `files` array of the JSON report (line 105): `result.files` serialized
in the order aggregation appended them — completion order, never sorted. -/
def jsonReportFiles (r : RepositoryAnalysis) : List FileAnalysis := r.files

/-- Sorting a group of per-file results by `file_path`
(`sorted(files, key=lambda x: x.file_path)`, line 81). -/
def sortByPath (l : List FileAnalysis) : List FileAnalysis :=
  l.insertionSort (fun a b => StrLeR a.file_path b.file_path)

/-- The detailed display listing (lines 69-92): group the results by language
(`by_language`, insertion-ordered, but iterated over `sorted` keys, line 77),
and within each language print the files sorted by path. The listing is the
concatenation of the groups in ascending language order. -/
def displayListing (files : List FileAnalysis) : List FileAnalysis :=
  (sortStr (files.map (fun a => a.language)).dedup).flatMap
    (fun lang => sortByPath (files.filter (fun a => a.language == lang)))

/-! ### Branch behaviour of `_analyze_single_file` -/

theorem asf_stat_raises (env : Env) (st : WorkerState) (cache : Cache)
    (p : String) (hfs : env.fs p = none) :
    analyze_single_file env st cache p = (Except.error (), st, cache) := by
  simp [analyze_single_file, hfs]

theorem asf_oversize (env : Env) (st : WorkerState) (cache : Cache)
    (p : String) (info : FileInfo) (hfs : env.fs p = some info)
    (hsz : info.st_size > env.maxFileSize) :
    analyze_single_file env st cache p = (Except.ok none, st, cache) := by
  simp [analyze_single_file, hfs, hsz]

theorem asf_lang_falsy (env : Env) (st : WorkerState) (cache : Cache)
    (p : String) (info : FileInfo) (hfs : env.fs p = some info)
    (hsz : ¬ info.st_size > env.maxFileSize)
    (hlang : optStrTruthy (env.ext2lang (pathSuffixLower p)) = false) :
    analyze_single_file env st cache p = (Except.ok none, st, cache) := by
  simp [analyze_single_file, hfs, hsz, hlang]

theorem asf_cache_hit (env : Env) (st : WorkerState) (cache : Cache)
    (p : String) (info : FileInfo) (a : FileAnalysis)
    (hfs : env.fs p = some info)
    (hsz : ¬ info.st_size > env.maxFileSize)
    (hlang : optStrTruthy (env.ext2lang (pathSuffixLower p)) = true)
    (hhit : cacheHit env.useCache cache (fileHash p info.st_mtime info.st_size)
      = some a) :
    analyze_single_file env st cache p = (Except.ok (some a), st, cache) := by
  simp [analyze_single_file, hfs, hsz, hlang, hhit]

theorem asf_read_fails (env : Env) (st : WorkerState) (cache : Cache)
    (p : String) (info : FileInfo)
    (hfs : env.fs p = some info)
    (hsz : ¬ info.st_size > env.maxFileSize)
    (hlang : optStrTruthy (env.ext2lang (pathSuffixLower p)) = true)
    (hhit : cacheHit env.useCache cache (fileHash p info.st_mtime info.st_size)
      = none)
    (hrd : info.content = none) :
    analyze_single_file env st cache p =
      (Except.ok none,
       { st with readWarnings := st.readWarnings ++ [p] }, cache) := by
  simp [analyze_single_file, hfs, hsz, hlang, hhit, hrd]

theorem asf_load_fails (env : Env) (st st' : WorkerState) (cache : Cache)
    (p : String) (info : FileInfo) (codeBytes : List Nat)
    (hfs : env.fs p = some info)
    (hsz : ¬ info.st_size > env.maxFileSize)
    (hlang : optStrTruthy (env.ext2lang (pathSuffixLower p)) = true)
    (hhit : cacheHit env.useCache cache (fileHash p info.st_mtime info.st_size)
      = none)
    (hrd : info.content = some codeBytes)
    (hld : get_language_for_worker env.loadLang st
      ((env.ext2lang (pathSuffixLower p)).getD "") = (none, st')) :
    analyze_single_file env st cache p = (Except.ok none, st', cache) := by
  simp [analyze_single_file, hfs, hsz, hlang, hhit, hrd, hld]

theorem asf_fresh (env : Env) (st st' : WorkerState) (cache : Cache)
    (p : String) (info : FileInfo) (codeBytes : List Nat) (d : LangData)
    (hfs : env.fs p = some info)
    (hsz : ¬ info.st_size > env.maxFileSize)
    (hlang : optStrTruthy (env.ext2lang (pathSuffixLower p)) = true)
    (hhit : cacheHit env.useCache cache (fileHash p info.st_mtime info.st_size)
      = none)
    (hrd : info.content = some codeBytes)
    (hld : get_language_for_worker env.loadLang st
      ((env.ext2lang (pathSuffixLower p)).getD "") = (some d, st')) :
    analyze_single_file env st cache p =
      (Except.ok (some (freshAnalysis d p
         ((env.ext2lang (pathSuffixLower p)).getD "") codeBytes env.elapsed)),
       st',
       cacheSave env.useCache env.saveOk cache
         (fileHash p info.st_mtime info.st_size)
         (freshAnalysis d p ((env.ext2lang (pathSuffixLower p)).getD "")
           codeBytes env.elapsed)) := by
  simp [analyze_single_file, hfs, hsz, hlang, hhit, hrd, hld]

/-! ### Facts about extraction and sorting -/

theorem sortStr_sorted (l : List String) : List.Sorted StrLeR (sortStr l) :=
  List.sorted_insertionSort StrLeR l

theorem sortStr_perm (l : List String) : List.Perm (sortStr l) l :=
  List.perm_insertionSort StrLeR l

theorem sortStr_eq_of_perm {l₁ l₂ : List String} (h : List.Perm l₁ l₂) :
    sortStr l₁ = sortStr l₂ :=
  List.eq_of_perm_of_sorted
    ((sortStr_perm l₁).trans (h.trans (sortStr_perm l₂).symm))
    (sortStr_sorted l₁) (sortStr_sorted l₂)

theorem extract_definitions_sorted (captures : List String) :
    List.Sorted StrLeR (extract_definitions captures) :=
  sortStr_sorted _

theorem extract_definitions_nodup (captures : List String) :
    (extract_definitions captures).Nodup :=
  (sortStr_perm _).nodup_iff.mpr (List.nodup_dedup _)

theorem extract_definitions_eq_of_perm {c₁ c₂ : List String} (h : List.Perm c₁ c₂) :
    extract_definitions c₁ = extract_definitions c₂ :=
  sortStr_eq_of_perm ((h.map pyStripNameText).dedup)

/-! ### Facts about aggregation -/

theorem successes_append (l₁ l₂ : List (Except Unit (Option FileAnalysis))) :
    successes (l₁ ++ l₂) = successes l₁ ++ successes l₂ :=
  List.filterMap_append l₁ l₂ _

theorem successes_perm {l₁ l₂ : List (Except Unit (Option FileAnalysis))}
    (h : List.Perm l₁ l₂) : List.Perm (successes l₁) (successes l₂) :=
  h.filterMap _

theorem successes_error_cons (l : List (Except Unit (Option FileAnalysis))) :
    successes (Except.error () :: l) = successes l := rfl

theorem successes_ok_none_cons (l : List (Except Unit (Option FileAnalysis))) :
    successes (Except.ok none :: l) = successes l := rfl

theorem successes_ok_some_cons (a : FileAnalysis)
    (l : List (Except Unit (Option FileAnalysis))) :
    successes (Except.ok (some a) :: l) = a :: successes l := rfl

theorem aggregate_eq_of_successes_eq
    {o₁ o₂ : List (Except Unit (Option FileAnalysis))} (t : Nat)
    (h : successes o₁ = successes o₂) : aggregate o₁ t = aggregate o₂ t := by
  simp [aggregate, h]

theorem aggregate_error_dropped (l₁ l₂ : List (Except Unit (Option FileAnalysis)))
    (t : Nat) :
    aggregate (l₁ ++ Except.error () :: l₂) t = aggregate (l₁ ++ l₂) t :=
  aggregate_eq_of_successes_eq t
    (by rw [successes_append, successes_error_cons, successes_append])

theorem aggregate_ok_none_dropped (l₁ l₂ : List (Except Unit (Option FileAnalysis)))
    (t : Nat) :
    aggregate (l₁ ++ Except.ok none :: l₂) t = aggregate (l₁ ++ l₂) t :=
  aggregate_eq_of_successes_eq t
    (by rw [successes_append, successes_ok_none_cons, successes_append])

theorem successes_all_ok (l : List (Except Unit (Option FileAnalysis)))
    (h : ∀ o ∈ l, ∃ a, o = Except.ok (some a)) :
    (successes l).length = l.length := by
  induction l with
  | nil => rfl
  | cons o rest ih =>
    obtain ⟨a, rfl⟩ := h o (by simp)
    rw [successes_ok_some_cons]
    simp only [List.length_cons]
    rw [ih (fun o ho => h o (by simp [ho]))]

/-! ### Facts about the display listing -/

theorem eq_of_perm_of_map_eq {α β : Type} (f : α → β) :
    ∀ {l₁ l₂ : List α}, List.Perm l₁ l₂ → l₁.map f = l₂.map f →
      (l₁.map f).Nodup → l₁ = l₂ := by
  intro l₁
  induction l₁ with
  | nil =>
    intro l₂ hp _ _
    exact (hp.symm.eq_nil).symm
  | cons a t ih =>
    intro l₂ hp hm hnd
    cases l₂ with
    | nil => simp at hm
    | cons b t₂ =>
      simp only [List.map_cons, List.cons.injEq] at hm
      obtain ⟨hab, hmt⟩ := hm
      have hA : a = b := by
        by_contra hne
        have hmem : a ∈ b :: t₂ := hp.subset (by simp)
        have hat₂ : a ∈ t₂ := by
          rcases List.mem_cons.mp hmem with h | h
          · exact absurd h hne
          · exact h
        have hfa : f a ∈ t₂.map f := List.mem_map_of_mem f hat₂
        rw [← hmt] at hfa
        simp only [List.map_cons, List.nodup_cons] at hnd
        exact hnd.1 hfa
      subst hA
      have hpt : List.Perm t t₂ := hp.cons_inv
      simp only [List.map_cons, List.nodup_cons] at hnd
      rw [ih hpt hmt hnd.2]

instance : IsTotal FileAnalysis (fun a b => StrLeR a.file_path b.file_path) :=
  ⟨fun a b => charListLe_total a.file_path.data b.file_path.data⟩

instance : IsTrans FileAnalysis (fun a b => StrLeR a.file_path b.file_path) :=
  ⟨fun a b c => charListLe_trans a.file_path.data b.file_path.data c.file_path.data⟩

theorem sortByPath_sorted (l : List FileAnalysis) :
    List.Sorted (fun a b => StrLeR a.file_path b.file_path) (sortByPath l) :=
  List.sorted_insertionSort _ l

theorem sortByPath_perm (l : List FileAnalysis) : List.Perm (sortByPath l) l :=
  List.perm_insertionSort _ l

theorem sortByPath_paths_sorted (l : List FileAnalysis) :
    List.Sorted StrLeR ((sortByPath l).map (fun a => a.file_path)) :=
  List.Pairwise.map _ (fun _ _ h => h) (sortByPath_sorted l)

theorem sortByPath_eq_of_perm {l₁ l₂ : List FileAnalysis}
    (hp : List.Perm l₁ l₂)
    (hnd : (l₁.map (fun a => a.file_path)).Nodup) :
    sortByPath l₁ = sortByPath l₂ := by
  have hperm : List.Perm (sortByPath l₁) (sortByPath l₂) :=
    (sortByPath_perm l₁).trans (hp.trans (sortByPath_perm l₂).symm)
  have hmap : (sortByPath l₁).map (fun a => a.file_path) =
      (sortByPath l₂).map (fun a => a.file_path) :=
    List.eq_of_perm_of_sorted (hperm.map _)
      (sortByPath_paths_sorted l₁) (sortByPath_paths_sorted l₂)
  have hnd₁ : ((sortByPath l₁).map (fun a => a.file_path)).Nodup :=
    (((sortByPath_perm l₁).map _).nodup_iff).mpr hnd
  exact eq_of_perm_of_map_eq _ hperm hmap hnd₁

theorem flatMap_congr {α β : Type} {l : List α} {f g : α → List β}
    (h : ∀ a ∈ l, f a = g a) : l.flatMap f = l.flatMap g := by
  induction l with
  | nil => rfl
  | cons a t ih =>
    simp only [List.flatMap_cons]
    rw [h a (by simp), ih (fun a ha => h a (by simp [ha]))]

theorem filter_paths_nodup (l : List FileAnalysis) (q : FileAnalysis → Bool)
    (hnd : (l.map (fun a => a.file_path)).Nodup) :
    ((l.filter q).map (fun a => a.file_path)).Nodup := by
  apply hnd.sublist
  apply List.Sublist.map
  exact List.filter_sublist l

theorem displayListing_eq_of_perm {l₁ l₂ : List FileAnalysis}
    (hp : List.Perm l₁ l₂)
    (hnd : (l₁.map (fun a => a.file_path)).Nodup) :
    displayListing l₁ = displayListing l₂ := by
  unfold displayListing
  rw [sortStr_eq_of_perm ((hp.map _).dedup)]
  apply flatMap_congr
  intro lang _
  exact sortByPath_eq_of_perm (hp.filter _)
    (filter_paths_nodup l₁ _ hnd)

/-! ### Facts about the per-worker capability cache -/

/-- Fold `_get_language_for_worker` over the sequence of language names the
files handed to one worker resolve to, starting from the given state: the
language-loading effect of a worker processing that sequence of files. -/
def processLangs (loadLang : String → Option LangData) (st : WorkerState) :
    List String → WorkerState
  | [] => st
  | l :: ls => processLangs loadLang (get_language_for_worker loadLang st l).2 ls

/-- Invariant tying the load log to the capability dict: every language ever
attempted is recorded in the dict (so it is never attempted again), each at
most once, and a warning was emitted at most once per attempt. -/
def workerInv (st : WorkerState) : Prop :=
  (∀ L, st.loadCalls.count L ≤ 1) ∧
  (∀ L, L ∈ st.loadCalls ↔ (lookupA st.workerLanguages L).isSome) ∧
  (∀ L, st.loadWarnings.count L ≤ st.loadCalls.count L)

theorem workerInv_init : workerInv initWorkerState := by
  refine ⟨fun L => by simp [initWorkerState], fun L => ?_, fun L => by simp [initWorkerState]⟩
  simp [initWorkerState, lookupA]

theorem glfw_cached (loadLang : String → Option LangData) (st : WorkerState)
    (L : String) (v : Option LangData)
    (h : lookupA st.workerLanguages L = some v) :
    get_language_for_worker loadLang st L = (v, st) := by
  simp [get_language_for_worker, h]

theorem glfw_inv_step (loadLang : String → Option LangData) (st : WorkerState)
    (L : String) (h : workerInv st) :
    workerInv (get_language_for_worker loadLang st L).2 := by
  obtain ⟨h₁, h₂, h₃⟩ := h
  unfold get_language_for_worker
  cases hlook : lookupA st.workerLanguages L with
  | some v => exact ⟨h₁, h₂, h₃⟩
  | none =>
    have hnotin : L ∉ st.loadCalls := by
      intro hmem
      have := (h₂ L).mp hmem
      rw [hlook] at this
      simp at this
    have hcount0 : st.loadCalls.count L = 0 := List.count_eq_zero.mpr hnotin
    cases hload : loadLang L with
    | some d =>
      refine ⟨fun M => ?_, fun M => ?_, fun M => ?_⟩
      · simp only [List.count_append]
        by_cases hML : M = L
        · subst hML
          simp [hcount0, List.count_singleton]
        · have : List.count M [L] = 0 := by
            simp [List.count_singleton, hML]
          simp [this, h₁ M]
      · simp only [List.mem_append, List.mem_singleton, lookupA]
        by_cases hML : L = M
        · subst hML
          simp
        · rw [if_neg hML]
          constructor
          · intro hmem
            rcases hmem with hmem | hmem
            · exact (h₂ M).mp hmem
            · exact absurd hmem.symm hML
          · intro hs
            exact Or.inl ((h₂ M).mpr hs)
      · simp only [List.count_append]
        have := h₃ M
        omega
    | none =>
      refine ⟨fun M => ?_, fun M => ?_, fun M => ?_⟩
      · simp only [List.count_append]
        by_cases hML : M = L
        · subst hML
          simp [hcount0, List.count_singleton]
        · have : List.count M [L] = 0 := by
            simp [List.count_singleton, hML]
          simp [this, h₁ M]
      · simp only [List.mem_append, List.mem_singleton, lookupA]
        by_cases hML : L = M
        · subst hML
          simp
        · rw [if_neg hML]
          constructor
          · intro hmem
            rcases hmem with hmem | hmem
            · exact (h₂ M).mp hmem
            · exact absurd hmem.symm hML
          · intro hs
            exact Or.inl ((h₂ M).mpr hs)
      · simp only [List.count_append]
        have := h₃ M
        by_cases hML : M = L
        · subst hML
          simp [List.count_singleton]
          omega
        · have hz : List.count M [L] = 0 := by
            simp [List.count_singleton, hML]
          simp [hz]
          omega

theorem processLangs_inv (loadLang : String → Option LangData)
    (ls : List String) :
    ∀ st, workerInv st → workerInv (processLangs loadLang st ls) := by
  induction ls with
  | nil => intro st h; exact h
  | cons l rest ih =>
    intro st h
    exact ih _ (glfw_inv_step loadLang st l h)

/-! ### Cache association-list facts -/

theorem lookupA_eraseA_self {α : Type} (c : List (String × α)) (k : String) :
    lookupA (eraseA c k) k = none := by
  induction c with
  | nil => rfl
  | cons kv rest ih =>
    by_cases h : kv.1 = k
    · simpa [eraseA, h] using ih
    · simpa [eraseA, lookupA, h] using ih

theorem lookupA_insertA_self {α : Type} (c : List (String × α)) (k : String)
    (v : α) : lookupA (insertA c k v) k = some v := by
  simp [insertA, lookupA]

/-! ### Where successful outcomes come from -/

theorem asf_ok_some_cases (env : Env) (st : WorkerState) (cache : Cache)
    (p : String) (a : FileAnalysis)
    (h : (analyze_single_file env st cache p).1 = Except.ok (some a)) :
    (∃ hid, lookupA cache hid = some (CacheEntry.valid a)) ∨
    (∃ (d : LangData) (langName : String) (codeBytes : List Nat),
      a = freshAnalysis d p langName codeBytes env.elapsed) := by
  unfold analyze_single_file at h
  cases hfs : env.fs p with
  | none => rw [hfs] at h; simp at h
  | some info =>
    rw [hfs] at h
    simp only at h
    by_cases hsz : info.st_size > env.maxFileSize
    · simp [if_pos hsz] at h
    · rw [if_neg hsz] at h
      by_cases htr : optStrTruthy (env.ext2lang (pathSuffixLower p)) = true
      · rw [if_pos htr] at h
        cases hhit : cacheHit env.useCache cache
            (fileHash p info.st_mtime info.st_size) with
        | some b =>
          rw [hhit] at h
          simp only [Except.ok.injEq, Option.some.injEq] at h
          left
          refine ⟨fileHash p info.st_mtime info.st_size, ?_⟩
          unfold cacheHit at hhit
          by_cases hu : env.useCache
          · rw [if_pos hu] at hhit
            cases hl : lookupA cache (fileHash p info.st_mtime info.st_size) with
            | none => rw [hl] at hhit; simp at hhit
            | some e =>
              rw [hl] at hhit
              cases e with
              | valid a' => simp only [Option.some.injEq] at hhit; rw [hhit, h]
              | corrupt => simp at hhit
          · rw [if_neg hu] at hhit; simp at hhit
        | none =>
          rw [hhit] at h
          cases hrd : info.content with
          | none => rw [hrd] at h; simp at h
          | some codeBytes =>
            rw [hrd] at h
            cases hld : get_language_for_worker env.loadLang st
                ((env.ext2lang (pathSuffixLower p)).getD "") with
            | mk dOpt st' =>
              rw [hld] at h
              cases dOpt with
              | none => simp at h
              | some d =>
                simp only [Except.ok.injEq, Option.some.injEq] at h
                right
                exact ⟨d, (env.ext2lang (pathSuffixLower p)).getD "", codeBytes, h.symm⟩
      · rw [if_neg htr] at h
        simp at h

/-- Both name lists of a `FileAnalysis` are duplicate-free and sorted
ascending (the invariant of spec section 3 on `AnalysisResult`). -/
def wellFormedLists (a : FileAnalysis) : Prop :=
  a.functions.Nodup ∧ List.Sorted StrLeR a.functions ∧
  a.imports.Nodup ∧ List.Sorted StrLeR a.imports

theorem freshAnalysis_wellFormed (d : LangData) (p langName : String)
    (codeBytes : List Nat) (elapsed : Nat) :
    wellFormedLists (freshAnalysis d p langName codeBytes elapsed) :=
  ⟨extract_definitions_nodup _, extract_definitions_sorted _,
   extract_definitions_nodup _, extract_definitions_sorted _⟩

/-! ### Concrete fixtures for witnesses and counterexamples -/

/-- A loaded python capability whose queries capture two function names (in
engine order) and one quoted import. -/
def pyLang : LangData :=
  { functionCaptures := fun _ => ["g", "f"]
    importCaptures := fun _ => ["\x22os\x22"] }

/-- A file system with one small python file. -/
def fsA : String → Option FileInfo :=
  fun p => if p = "repo/a.py" then some ⟨5, 3, some [102, 10]⟩ else none

/-- A concrete worker environment over `fsA` whose fresh-analysis path takes
7 ticks. -/
def envA : Env :=
  { ext2lang := extension_to_lang_name
    loadLang := fun l => if l = "python" then some pyLang else none
    fs := fsA
    useCache := true
    saveOk := true
    maxFileSize := 100
    elapsed := 7 }

/-- The `envA` world on a later run whose fresh path would take 0 ticks. -/
def envA0 : Env :=
  { envA with elapsed := 0 }

/-- The analysis `envA` produces freshly for `repo/a.py`. -/
def resultA : FileAnalysis :=
  { file_path := "repo/a.py"
    functions := ["f", "g"]
    imports := ["os"]
    language := "python"
    file_size := 2
    processing_time := 7 }

/-- A second concrete result, used in aggregation fixtures. -/
def resultB : FileAnalysis :=
  { file_path := "repo/b.go"
    functions := ["h"]
    imports := []
    language := "go"
    file_size := 4
    processing_time := 2 }

/-! ### C3 -/

/-- C3: the extraction used for both the functions and the imports list of a
successful `AnalysisResult` yields duplicate-free, ascending-sorted lists, is
invariant under permutation of the engine's capture order, and every
successful outcome of `_analyze_single_file` carries such lists provided
every deserializable cache entry does (cache entries are written from fresh
results, which do). -/
theorem c3_extraction_sorted_nodup_order_independent :
    (∀ captures : List String,
      (extract_definitions captures).Nodup ∧
      List.Sorted StrLeR (extract_definitions captures)) ∧
    (∀ c₁ c₂ : List String, List.Perm c₁ c₂ →
      extract_definitions c₁ = extract_definitions c₂) ∧
    (∀ (env : Env) (st : WorkerState) (cache : Cache) (p : String)
      (a : FileAnalysis),
      (∀ k e, lookupA cache k = some (CacheEntry.valid e) → wellFormedLists e) →
      (analyze_single_file env st cache p).1 = Except.ok (some a) →
      wellFormedLists a) := by
  refine ⟨fun captures =>
      ⟨extract_definitions_nodup _, extract_definitions_sorted _⟩,
    fun c₁ c₂ h => extract_definitions_eq_of_perm h, ?_⟩
  intro env st cache p a hcache h
  rcases asf_ok_some_cases env st cache p a h with
    ⟨hid, hl⟩ | ⟨d, langName, codeBytes, rfl⟩
  · exact hcache hid a hl
  · exact freshAnalysis_wellFormed d p langName codeBytes env.elapsed

/-- Witness for C3 at concrete inputs: two engine orders of the same captures
extract identically, and the concrete successful outcome of `envA` carries
well-formed lists. -/
theorem c3_witness :
    (extract_definitions ["g", "f", "g"] = extract_definitions ["f", "g", "g"]) ∧
    wellFormedLists resultA :=
  ⟨c3_extraction_sorted_nodup_order_independent.2.1 ["g", "f", "g"]
      ["f", "g", "g"] (by decide),
   c3_extraction_sorted_nodup_order_independent.2.2 envA initWorkerState []
      "repo/a.py" resultA
      (by intro k e h; simp [lookupA] at h)
      (by decide)⟩

/-! ### C4 -/

/-- C4: in every `RepositoryAnalysis` the aggregation loop produces,
`total_functions` and `total_imports` are the exact sums of the per-file list
lengths over the contained results, `total_files` is the number of contained
results, and all three totals are unchanged under any permutation of the
completion order of the task outcomes. -/
theorem c4_totals_exact_order_independent :
    ∀ (outcomes : List (Except Unit (Option FileAnalysis))) (t : Nat),
      ((aggregate outcomes t).total_functions =
        ((aggregate outcomes t).files.map (fun a => a.functions.length)).sum) ∧
      ((aggregate outcomes t).total_imports =
        ((aggregate outcomes t).files.map (fun a => a.imports.length)).sum) ∧
      ((aggregate outcomes t).total_files =
        (aggregate outcomes t).files.length) ∧
      (∀ (outcomes' : List (Except Unit (Option FileAnalysis))) (t' : Nat),
        List.Perm outcomes outcomes' →
        (aggregate outcomes' t').total_files = (aggregate outcomes t).total_files ∧
        (aggregate outcomes' t').total_functions =
          (aggregate outcomes t).total_functions ∧
        (aggregate outcomes' t').total_imports =
          (aggregate outcomes t).total_imports) := by
  intro outcomes t
  refine ⟨rfl, rfl, rfl, ?_⟩
  intro outcomes' t' hp
  have hs : List.Perm (successes outcomes) (successes outcomes') :=
    successes_perm hp
  exact ⟨(hs.length_eq).symm, ((hs.map _).sum_eq).symm, ((hs.map _).sum_eq).symm⟩

/-- Witness for C4: a concrete batch of outcomes (two successes, one failure,
one skip) aggregated in two completion orders. -/
theorem c4_witness :
    (aggregate [Except.ok (some resultB), Except.ok none, Except.error (),
        Except.ok (some resultA)] 3).total_files =
      (aggregate [Except.ok (some resultA), Except.error (), Except.ok none,
        Except.ok (some resultB)] 5).total_files ∧
    (aggregate [Except.ok (some resultB), Except.ok none, Except.error (),
        Except.ok (some resultA)] 3).total_functions =
      (aggregate [Except.ok (some resultA), Except.error (), Except.ok none,
        Except.ok (some resultB)] 5).total_functions ∧
    (aggregate [Except.ok (some resultB), Except.ok none, Except.error (),
        Except.ok (some resultA)] 3).total_imports =
      (aggregate [Except.ok (some resultA), Except.error (), Except.ok none,
        Except.ok (some resultB)] 5).total_imports :=
  (c4_totals_exact_order_independent
    [Except.ok (some resultA), Except.error (), Except.ok none,
     Except.ok (some resultB)] 5).2.2.2
    [Except.ok (some resultB), Except.ok none, Except.error (),
     Except.ok (some resultA)] 3 (by decide)

/-! ### C5 -/

/-- C5: for a fixed path, two fingerprint computations agree exactly when the
file's modification time and byte size are both unchanged; the fingerprint is
a function of `(path, mtime, size)` alone, so file content never enters it
(the md5 digest of the formatted stat string is modelled as injective, the
spec's negligible-collision assumption). -/
theorem c5_fingerprint_same_iff_stat_same :
    ∀ (p : String) (m₁ s₁ m₂ s₂ : Nat),
      fileHash p m₁ s₁ = fileHash p m₂ s₂ ↔ (m₁ = m₂ ∧ s₁ = s₂) :=
  fun p m₁ s₁ m₂ s₂ => fileHash_eq_iff p m₁ s₁ m₂ s₂

/-! ### C1 -/

/-- C1 (amended): with caching enabled and the file unchanged (same
fingerprint), a re-run returns the stored `AnalysisResult` bit-identical —
including its `processing_time` field, which is the prior run's measured
fresh-analysis duration, not a near-zero value; and a fresh analysis stamps
exactly the measured duration of the fresh path and stores the very result it
returns under the file's fingerprint. -/
theorem c1_amended_cache_hit_bit_identical :
    (∀ (env : Env) (st : WorkerState) (cache : Cache) (p : String)
      (info : FileInfo) (a : FileAnalysis),
      env.fs p = some info →
      ¬ info.st_size > env.maxFileSize →
      optStrTruthy (env.ext2lang (pathSuffixLower p)) = true →
      env.useCache = true →
      lookupA cache (fileHash p info.st_mtime info.st_size) =
        some (CacheEntry.valid a) →
      analyze_single_file env st cache p = (Except.ok (some a), st, cache)) ∧
    (∀ (env : Env) (st st' : WorkerState) (cache : Cache) (p : String)
      (info : FileInfo) (codeBytes : List Nat) (d : LangData),
      env.fs p = some info →
      ¬ info.st_size > env.maxFileSize →
      optStrTruthy (env.ext2lang (pathSuffixLower p)) = true →
      cacheHit env.useCache cache (fileHash p info.st_mtime info.st_size) = none →
      info.content = some codeBytes →
      get_language_for_worker env.loadLang st
        ((env.ext2lang (pathSuffixLower p)).getD "") = (some d, st') →
      env.useCache = true → env.saveOk = true →
      (analyze_single_file env st cache p).1 =
        Except.ok (some (freshAnalysis d p
          ((env.ext2lang (pathSuffixLower p)).getD "") codeBytes env.elapsed)) ∧
      (freshAnalysis d p ((env.ext2lang (pathSuffixLower p)).getD "")
        codeBytes env.elapsed).processing_time = env.elapsed ∧
      lookupA (analyze_single_file env st cache p).2.2
          (fileHash p info.st_mtime info.st_size) =
        some (CacheEntry.valid (freshAnalysis d p
          ((env.ext2lang (pathSuffixLower p)).getD "") codeBytes env.elapsed))) := by
  constructor
  · intro env st cache p info a hfs hsz htr hu hl
    apply asf_cache_hit env st cache p info a hfs hsz htr
    simp [cacheHit, hu, hl]
  · intro env st st' cache p info codeBytes d hfs hsz htr hhit hrd hld hu hsv
    rw [asf_fresh env st st' cache p info codeBytes d hfs hsz htr hhit hrd hld]
    refine ⟨rfl, rfl, ?_⟩
    simp only [cacheSave, hu, hsv, Bool.and_self, if_true]
    exact lookupA_insertA_self _ _ _

/-- Witness for C1 (amended): under `envA`, a first run from the empty cache
analyzes `repo/a.py` freshly and stores `resultA`; the second conjunct is
applied to it, and the first conjunct then replays the hit on the stored
entry, returning `resultA` itself with the cache and worker state untouched. -/
theorem c1_amended_witness :
    analyze_single_file envA0 initWorkerState
        [(fileHash "repo/a.py" 5 3, CacheEntry.valid resultA)] "repo/a.py" =
      (Except.ok (some resultA), initWorkerState,
       [(fileHash "repo/a.py" 5 3, CacheEntry.valid resultA)]) :=
  c1_amended_cache_hit_bit_identical.1 envA0 initWorkerState
    [(fileHash "repo/a.py" 5 3, CacheEntry.valid resultA)] "repo/a.py"
    ⟨5, 3, some [102, 10]⟩ resultA (by decide) (by decide) (by decide)
    (by decide) (by decide)

/-- Counterexample to C1 as stated: run the worker on `repo/a.py` under `envA`
(fresh path takes 7 ticks), then re-run over the resulting cache with an
unchanged file in a world whose fresh path would take 0 ticks. The cache hit
returns the prior result bit-identically — so its reported
`processing_time` is the prior run's 7-tick fresh duration, not a near-zero
(0-tick) duration. -/
theorem c1_counterexample :
    (analyze_single_file envA0 initWorkerState
      ((analyze_single_file envA initWorkerState [] "repo/a.py").2.2)
      "repo/a.py").1 = Except.ok (some resultA) ∧
    resultA.processing_time = 7 ∧ ¬ resultA.processing_time = 0 :=
  ⟨by decide, by decide, by decide⟩

/-! ### C2 -/

/-- A file system with one python file of 101 bytes. -/
def fsB : String → Option FileInfo :=
  fun p => if p = "repo/big.py" then some ⟨1, 101, some [102]⟩ else none

/-- A worker environment over `fsB` with a 100-byte size ceiling. -/
def envB : Env :=
  { ext2lang := extension_to_lang_name
    loadLang := fun _ => none
    fs := fsB
    useCache := true
    saveOk := true
    maxFileSize := 100
    elapsed := 1 }

/-- A repository holding only the oversized file. -/
def treeB : FSTree := FSTree.dir "repo" [] ["big.py"]

/-- Counterexample to C2 as stated: `_collect_files` checks only the
extension, never the size, so the 101-byte `repo/big.py` is produced in the
candidate list even though it exceeds the 100-byte ceiling (the size check
happens later, in `_analyze_single_file`). -/
theorem c2_counterexample :
    collect_files extension_to_lang_name defaultExcludePatterns "repo" treeB =
      ["repo/big.py"] ∧
    fsB "repo/big.py" = some ⟨1, 101, some [102]⟩ ∧
    envB.maxFileSize < 101 :=
  ⟨by decide, by decide, by decide⟩

/-- C2 (amended): a file whose size exceeds the ceiling does appear in the
candidate list discovery produces (discovery never consults size), but the
worker's re-check returns the skip outcome for it — no exception, no log, no
state change — and a skipped outcome contributes nothing to the final
aggregate. -/
theorem c2_amended_oversize_skipped_not_aggregated :
    (∀ (env : Env) (st : WorkerState) (cache : Cache) (p : String)
      (info : FileInfo),
      env.fs p = some info → info.st_size > env.maxFileSize →
      analyze_single_file env st cache p = (Except.ok none, st, cache)) ∧
    (∀ (l₁ l₂ : List (Except Unit (Option FileAnalysis))) (t : Nat),
      aggregate (l₁ ++ Except.ok none :: l₂) t = aggregate (l₁ ++ l₂) t) := by
  exact ⟨fun env st cache p info hfs hsz => asf_oversize env st cache p info hfs hsz,
    aggregate_ok_none_dropped⟩

/-- Witness for C2 (amended): the oversized `repo/big.py` yields the skip
outcome under `envB`, and dropping that outcome from a concrete batch leaves
the aggregate unchanged. -/
theorem c2_amended_witness :
    analyze_single_file envB initWorkerState [] "repo/big.py" =
      (Except.ok none, initWorkerState, []) ∧
    aggregate [Except.ok (some resultA), Except.ok none] 4 =
      aggregate [Except.ok (some resultA)] 4 :=
  ⟨c2_amended_oversize_skipped_not_aggregated.1 envB initWorkerState []
      "repo/big.py" ⟨1, 101, some [102]⟩ (by decide) (by decide),
   c2_amended_oversize_skipped_not_aggregated.2 [Except.ok (some resultA)] [] 4⟩

/-! ### C6 -/

/-- C6: a corrupt/unreadable cache entry under the file's fingerprint makes
`_analyze_single_file` behave exactly as on a cache miss: the outcome and the
worker state equal those of the run with the entry absent (no error is
propagated), and when the fresh path succeeds the outcome is the correctly
assembled fresh `AnalysisResult`. -/
theorem c6_corrupt_entry_acts_as_miss :
    ∀ (env : Env) (st : WorkerState) (cache : Cache) (p : String)
      (info : FileInfo),
      env.fs p = some info →
      lookupA cache (fileHash p info.st_mtime info.st_size) =
        some CacheEntry.corrupt →
      (((analyze_single_file env st cache p).1 =
          (analyze_single_file env st
            (eraseA cache (fileHash p info.st_mtime info.st_size)) p).1) ∧
       ((analyze_single_file env st cache p).2.1 =
          (analyze_single_file env st
            (eraseA cache (fileHash p info.st_mtime info.st_size)) p).2.1)) ∧
      (∀ (codeBytes : List Nat) (d : LangData) (st' : WorkerState),
        ¬ info.st_size > env.maxFileSize →
        optStrTruthy (env.ext2lang (pathSuffixLower p)) = true →
        info.content = some codeBytes →
        get_language_for_worker env.loadLang st
          ((env.ext2lang (pathSuffixLower p)).getD "") = (some d, st') →
        (analyze_single_file env st cache p).1 =
          Except.ok (some (freshAnalysis d p
            ((env.ext2lang (pathSuffixLower p)).getD "") codeBytes
            env.elapsed))) := by
  intro env st cache p info hfs hcor
  have hhit₁ : cacheHit env.useCache cache
      (fileHash p info.st_mtime info.st_size) = none := by
    cases hu : env.useCache <;> simp [cacheHit, hu, hcor]
  have hhit₂ : cacheHit env.useCache
      (eraseA cache (fileHash p info.st_mtime info.st_size))
      (fileHash p info.st_mtime info.st_size) = none := by
    cases hu : env.useCache <;> simp [cacheHit, hu, lookupA_eraseA_self]
  constructor
  · by_cases hsz : info.st_size > env.maxFileSize
    · rw [asf_oversize env st cache p info hfs hsz,
        asf_oversize env st _ p info hfs hsz]
      exact ⟨rfl, rfl⟩
    · by_cases htr : optStrTruthy (env.ext2lang (pathSuffixLower p)) = true
      · cases hrd : info.content with
        | none =>
          rw [asf_read_fails env st cache p info hfs hsz htr hhit₁ hrd,
            asf_read_fails env st _ p info hfs hsz htr hhit₂ hrd]
          exact ⟨rfl, rfl⟩
        | some codeBytes =>
          cases hld : get_language_for_worker env.loadLang st
              ((env.ext2lang (pathSuffixLower p)).getD "") with
          | mk dOpt st' =>
            cases dOpt with
            | none =>
              rw [asf_load_fails env st st' cache p info codeBytes hfs hsz htr
                  hhit₁ hrd hld,
                asf_load_fails env st st' _ p info codeBytes hfs hsz htr
                  hhit₂ hrd hld]
              exact ⟨rfl, rfl⟩
            | some d =>
              rw [asf_fresh env st st' cache p info codeBytes d hfs hsz htr
                  hhit₁ hrd hld,
                asf_fresh env st st' _ p info codeBytes d hfs hsz htr
                  hhit₂ hrd hld]
              exact ⟨rfl, rfl⟩
      · have htr' : optStrTruthy (env.ext2lang (pathSuffixLower p)) = false := by
          simp at htr
          exact htr
        rw [asf_lang_falsy env st cache p info hfs hsz htr',
          asf_lang_falsy env st _ p info hfs hsz htr']
        exact ⟨rfl, rfl⟩
  · intro codeBytes d st' hsz htr hrd hld
    rw [asf_fresh env st st' cache p info codeBytes d hfs hsz htr hhit₁ hrd hld]

/-- Witness for C6: under `envA`, a cache whose only entry for `repo/a.py`'s
fingerprint is corrupt leads to a fresh re-analysis producing the correct
result. -/
theorem c6_witness :
    (analyze_single_file envA initWorkerState
        [(fileHash "repo/a.py" 5 3, CacheEntry.corrupt)] "repo/a.py").1 =
      Except.ok (some (freshAnalysis pyLang "repo/a.py" "python" [102, 10] 7)) :=
  (c6_corrupt_entry_acts_as_miss envA initWorkerState
    [(fileHash "repo/a.py" 5 3, CacheEntry.corrupt)] "repo/a.py"
    ⟨5, 3, some [102, 10]⟩ (by decide) (by decide)).2 [102, 10] pyLang
    { workerLanguages := [("python", some pyLang)]
      loadCalls := ["python"]
      loadWarnings := []
      readWarnings := [] }
    (by decide) (by decide) (by decide) rfl

/-! ### C9 -/

/-- C9: a task whose `future.result()` raises is isolated — dropping the
raised outcome from the completion sequence leaves the aggregate unchanged
(the sibling outcomes all still contribute), and in particular with five
candidates of which exactly one fails and four succeed, the aggregate counts
exactly the four successes and its files list is exactly those successes. -/
theorem c9_worker_failure_isolated :
    (∀ (l₁ l₂ : List (Except Unit (Option FileAnalysis))) (t : Nat),
      aggregate (l₁ ++ Except.error () :: l₂) t = aggregate (l₁ ++ l₂) t) ∧
    (∀ (l₁ l₂ : List (Except Unit (Option FileAnalysis))) (t : Nat),
      (∀ o ∈ l₁ ++ l₂, ∃ a, o = Except.ok (some a)) →
      (l₁ ++ l₂).length = 4 →
      (aggregate (l₁ ++ Except.error () :: l₂) t).total_files = 4 ∧
      (aggregate (l₁ ++ Except.error () :: l₂) t).files =
        successes (l₁ ++ l₂)) := by
  refine ⟨aggregate_error_dropped, ?_⟩
  intro l₁ l₂ t hok hlen
  rw [aggregate_error_dropped]
  constructor
  · show (successes (l₁ ++ l₂)).length = 4
    rw [successes_all_ok _ hok, hlen]
  · rfl

/-- Witness for C9: five concrete outcomes, the middle one failed, aggregate
to exactly the four successes. -/
theorem c9_witness :
    (aggregate [Except.ok (some resultA), Except.ok (some resultB),
        Except.error (), Except.ok (some resultA), Except.ok (some resultB)]
        9).total_files = 4 ∧
    (aggregate [Except.ok (some resultA), Except.ok (some resultB),
        Except.error (), Except.ok (some resultA), Except.ok (some resultB)]
        9).files =
      successes [Except.ok (some resultA), Except.ok (some resultB),
        Except.ok (some resultA), Except.ok (some resultB)] :=
  (c9_worker_failure_isolated.2
    [Except.ok (some resultA), Except.ok (some resultB)]
    [Except.ok (some resultA), Except.ok (some resultB)] 9
    (by
      intro o ho
      simp only [List.mem_append, List.mem_cons, List.not_mem_nil, or_false] at ho
      rcases ho with (rfl | rfl) | (rfl | rfl)
      · exact ⟨resultA, rfl⟩
      · exact ⟨resultB, rfl⟩
      · exact ⟨resultA, rfl⟩
      · exact ⟨resultB, rfl⟩)
    (by decide))

/-! ### C10 -/

/-- C10: every non-success condition of the worker — size over the ceiling,
unmapped or falsy extension, unreadable file on a cache miss, or failed
capability load on a cache miss — returns the very same outcome value
(`None`), so the aggregation loop cannot tell a skip from a per-file failure:
any such outcome leaves counts, languages and the files list of the
aggregate exactly as if the file had never been submitted. -/
theorem c10_non_success_cases_identical :
    (∀ (env : Env) (st : WorkerState) (cache : Cache) (p : String)
      (info : FileInfo),
      env.fs p = some info →
      (info.st_size > env.maxFileSize ∨
       optStrTruthy (env.ext2lang (pathSuffixLower p)) = false ∨
       (cacheHit env.useCache cache (fileHash p info.st_mtime info.st_size)
          = none ∧ info.content = none) ∨
       (cacheHit env.useCache cache (fileHash p info.st_mtime info.st_size)
          = none ∧
        (∃ codeBytes, info.content = some codeBytes) ∧
        (get_language_for_worker env.loadLang st
          ((env.ext2lang (pathSuffixLower p)).getD "")).1 = none)) →
      (analyze_single_file env st cache p).1 = Except.ok none) ∧
    (∀ (l₁ l₂ : List (Except Unit (Option FileAnalysis))) (t : Nat),
      aggregate (l₁ ++ Except.ok none :: l₂) t = aggregate (l₁ ++ l₂) t) := by
  refine ⟨?_, aggregate_ok_none_dropped⟩
  intro env st cache p info hfs hcase
  by_cases hsz : info.st_size > env.maxFileSize
  · rw [asf_oversize env st cache p info hfs hsz]
  · by_cases htr : optStrTruthy (env.ext2lang (pathSuffixLower p)) = true
    · rcases hcase with hsz' | htr' | ⟨hhit, hrd⟩ | ⟨hhit, ⟨codeBytes, hrd⟩, hld⟩
      · exact absurd hsz' hsz
      · rw [htr'] at htr
        exact absurd htr (by simp)
      · rw [asf_read_fails env st cache p info hfs hsz htr hhit hrd]
      · cases hld' : get_language_for_worker env.loadLang st
            ((env.ext2lang (pathSuffixLower p)).getD "") with
        | mk dOpt st' =>
          rw [hld'] at hld
          simp only at hld
          subst hld
          rw [asf_load_fails env st st' cache p info codeBytes hfs hsz htr
            hhit hrd hld']
    · have htr' : optStrTruthy (env.ext2lang (pathSuffixLower p)) = false := by
        simp at htr
        exact htr
      rw [asf_lang_falsy env st cache p info hfs hsz htr']

/-- A file system with one unreadable python file. -/
def fsC : String → Option FileInfo :=
  fun p => if p = "repo/c.py" then some ⟨2, 3, none⟩ else none

/-- A worker environment over `fsC`. -/
def envC : Env :=
  { ext2lang := extension_to_lang_name
    loadLang := fun l => if l = "python" then some pyLang else none
    fs := fsC
    useCache := true
    saveOk := true
    maxFileSize := 100
    elapsed := 1 }

/-- Witness for C10: a concrete unreadable file yields the indistinct `None`
outcome, and a concrete batch containing that outcome aggregates as if the
file had never been submitted. -/
theorem c10_witness :
    (analyze_single_file envC initWorkerState [] "repo/c.py").1 =
      Except.ok none ∧
    aggregate [Except.ok none, Except.ok (some resultB)] 2 =
      aggregate [Except.ok (some resultB)] 2 :=
  ⟨c10_non_success_cases_identical.1 envC initWorkerState [] "repo/c.py"
      ⟨2, 3, none⟩ (by decide)
      (Or.inr (Or.inr (Or.inl ⟨by decide, by decide⟩))),
   c10_non_success_cases_identical.2 [] [Except.ok (some resultB)] 2⟩

/-! ### C7 -/

/-- Counterexample to C7 as stated: the `files` array of the JSON report is
`result.files` in completion order — `main.py` never sorts it — so the
completion order success-of-`b.go`-then-success-of-`a.py` produces a report
whose per-file listing is not sorted by path. -/
theorem c7_counterexample :
    jsonReportFiles
        (aggregate [Except.ok (some resultB), Except.ok (some resultA)] 0) =
      [resultB, resultA] ∧
    ¬ List.Sorted StrLeR
      ((jsonReportFiles
        (aggregate [Except.ok (some resultB), Except.ok (some resultA)] 0)).map
        (fun a => a.file_path)) :=
  ⟨by decide, by decide⟩

/-- C7 (amended): after aggregation the detailed display listing is
deterministic — for any two completion orders of the same results (with
distinct paths) it is the identical list, grouped by ascending language with
files path-sorted inside each group — but the JSON report's `files` array
stays in completion order and is not sorted by path. -/
theorem c7_amended_display_deterministic :
    (∀ (l₁ l₂ : List FileAnalysis), List.Perm l₁ l₂ →
      (l₁.map (fun a => a.file_path)).Nodup →
      displayListing l₁ = displayListing l₂) ∧
    (∀ l : List FileAnalysis,
      List.Sorted StrLeR ((sortByPath l).map (fun a => a.file_path))) ∧
    (∀ (outcomes : List (Except Unit (Option FileAnalysis))) (t : Nat),
      jsonReportFiles (aggregate outcomes t) = successes outcomes) := by
  exact ⟨fun l₁ l₂ hp hnd => displayListing_eq_of_perm hp hnd,
    sortByPath_paths_sorted,
    fun outcomes t => rfl⟩

/-- Witness for C7 (amended): the two completion orders of `resultA` and
`resultB` display identically. -/
theorem c7_amended_witness :
    displayListing [resultB, resultA] = displayListing [resultA, resultB] :=
  c7_amended_display_deterministic.1 [resultB, resultA] [resultA, resultB]
    (by decide) (by decide)

/-! ### C8 -/

/-- C8: within one execution context (worker process starting from the empty
`WORKER_LANGUAGES`), the expensive capability load is attempted at most once
per language and its failure warning is logged at most once per language, no
matter which sequence of languages the context's files resolve to; a language
already recorded in the dict — a permanent negative entry included — is
answered from the dict with the state untouched (the load is never retried);
and a file whose language has a recorded load failure yields the skip outcome
with worker state and cache unchanged. -/
theorem c8_load_failure_permanent_per_context :
    (∀ (loadLang : String → Option LangData) (ls : List String) (L : String),
      ((processLangs loadLang initWorkerState ls).loadCalls.count L ≤ 1) ∧
      ((processLangs loadLang initWorkerState ls).loadWarnings.count L ≤ 1)) ∧
    (∀ (loadLang : String → Option LangData) (st : WorkerState) (L : String)
      (v : Option LangData),
      lookupA st.workerLanguages L = some v →
      get_language_for_worker loadLang st L = (v, st)) ∧
    (∀ (env : Env) (st : WorkerState) (cache : Cache) (p : String)
      (info : FileInfo) (codeBytes : List Nat),
      env.fs p = some info →
      ¬ info.st_size > env.maxFileSize →
      optStrTruthy (env.ext2lang (pathSuffixLower p)) = true →
      cacheHit env.useCache cache (fileHash p info.st_mtime info.st_size)
        = none →
      info.content = some codeBytes →
      lookupA st.workerLanguages
        ((env.ext2lang (pathSuffixLower p)).getD "") = some none →
      analyze_single_file env st cache p = (Except.ok none, st, cache)) := by
  refine ⟨?_, glfw_cached, ?_⟩
  · intro loadLang ls L
    obtain ⟨h₁, _, h₃⟩ := processLangs_inv loadLang ls initWorkerState workerInv_init
    exact ⟨h₁ L, le_trans (h₃ L) (h₁ L)⟩
  · intro env st cache p info codeBytes hfs hsz htr hhit hrd hcached
    exact asf_load_fails env st st cache p info codeBytes hfs hsz htr hhit hrd
      (glfw_cached env.loadLang st _ none hcached)

/-- The state of a worker that has already recorded a failed load of the
python capability. -/
def stFailedPy : WorkerState :=
  { workerLanguages := [("python", none)]
    loadCalls := ["python"]
    loadWarnings := ["python"]
    readWarnings := [] }

/-- Witness for C8: a context that sees python twice and go once attempts and
warns once per language, and a worker with a recorded python load failure
skips a python file without touching its state — even though `envA`'s loader
would now succeed, it is not retried. -/
theorem c8_witness :
    ((processLangs (fun _ => none) initWorkerState
        ["python", "python", "go"]).loadCalls.count "python" ≤ 1) ∧
    ((processLangs (fun _ => none) initWorkerState
        ["python", "python", "go"]).loadWarnings.count "python" ≤ 1) ∧
    analyze_single_file envA stFailedPy [] "repo/a.py" =
      (Except.ok none, stFailedPy, []) :=
  ⟨(c8_load_failure_permanent_per_context.1 (fun _ => none)
      ["python", "python", "go"] "python").1,
   (c8_load_failure_permanent_per_context.1 (fun _ => none)
      ["python", "python", "go"] "python").2,
   c8_load_failure_permanent_per_context.2.2 envA stFailedPy [] "repo/a.py"
     ⟨5, 3, some [102, 10]⟩ [102, 10] (by decide) (by decide) (by decide)
     (by decide) (by decide) rfl⟩
